import Mathlib

/-!
# Verification of the nero program-splitting and disprove-script core

Shallow embedding of the bisection (splitting) engine, the distortion
utility, the complexity estimator, the Winternitz-based state signing and
the disprove-script generator of the nero repository, together with proofs
of the specified properties.

Conventions used throughout:
* stack elements are `Nat` values (the signing layer decodes every element
  as a `u32`, asserted below `2^31`);
* stacks are Lean lists with the HEAD as the TOP of the stack, i.e. the
  reverse of the Rust `Vec` storage order (Rust `Vec` index 0 is the
  bottom); every iteration order is translated accordingly;
* fallible Rust code (assertion failures, panics, caller-contract
  violations) is modelled with `Option`.
-/

namespace Nero

/-- Modelled from the spec: `IntermediateState`
(`bitcoin-splitter/src/split/intermediate_state.rs` is not part of the
sources given) — "an ordered pair (stack, altstack), each an ordered
sequence of elements".  Elements are stored as the `u32` values that the
signing layer decodes them to; the list head is the top of the stack. -/
structure IntermediateState where
  stack : List Nat
  altstack : List Nat
  deriving Repr, DecidableEq

/-- Modelled from the spec: a state's `size()` is `|stack| + |altstack|`
(element counts, not byte lengths). -/
def IntermediateState.size (s : IntermediateState) : Nat :=
  s.stack.length + s.altstack.length

/-- A single stack-machine instruction.  The interpreter's opcode
semantics are an external collaborator (spec section 1), so an instruction
is represented by its serialized byte length together with its state
transformer, which may fail. -/
structure Instr where
  byteLen : Nat
  run : IntermediateState → Option IntermediateState

/-- A program is an immutable sequence of instructions. -/
abbrev Program : Type := List Instr

/-- The interpreter adapter: execute a program instruction by instruction
against a state; a failing instruction aborts the whole execution
(`execute(program, state) -> Result<state, ExecutionFailure>`). -/
def executeProgram : List Instr → IntermediateState → Option IntermediateState
  | [], s => some s
  | i :: rest, s => (i.run s).bind (executeProgram rest)

/-- `SplitType` from `bitcoin-splitter/src/split/core.rs` (file not in the
given sources; modelled from the spec): a closed enumeration of the two
boundary-selection units of measure. -/
inductive SplitType where
  | ByInstructions : SplitType
  | ByBytes : SplitType
  deriving Repr, DecidableEq

/-- The unit of measure an instruction contributes under a split policy:
1 when cutting by instruction count, its byte length when cutting by
serialized byte length. -/
def instrMeasure : SplitType → Instr → Nat
  | SplitType.ByInstructions, _ => 1
  | SplitType.ByBytes, i => i.byteLen

/-- Modelled from the spec: the naive-split chunker of
`bitcoin-splitter/src/split/core.rs` (not in the given sources) — "walk
the program's instruction stream, accumulating instructions into the
current shard until the chosen unit-of-measure budget (`chunk_size`) is
reached, then close the shard and start a new one; repeat until the
program is exhausted, the last shard taking whatever remains."
`acc` is the (reversed) current shard, `k` its accumulated measure. -/
def naiveChunksGo (μ : Instr → Nat) (c : Nat) :
    List Instr → List Instr → Nat → List (List Instr)
  | [], acc, _ => if acc.isEmpty then [] else [acc.reverse]
  | i :: rest, acc, k =>
      if c ≤ k + μ i then
        (i :: acc).reverse :: naiveChunksGo μ c rest [] 0
      else
        naiveChunksGo μ c rest (i :: acc) (k + μ i)

/-- The shard list produced by a naive split. -/
def naiveChunks (μ : Instr → Nat) (c : Nat) (P : List Instr) : List (List Instr) :=
  naiveChunksGo μ c P [] 0

/-- State derivation of the splitting engine: starting from `input`,
execute shard 1 to obtain state 1, execute shard 2 against state 1, and so
on; an execution failure propagates unchanged. -/
def statesOf : List (List Instr) → IntermediateState → Option (List IntermediateState)
  | [], _ => some []
  | sh :: rest, s =>
      (executeProgram sh s).bind fun s1 =>
        (statesOf rest s1).map fun tail => s1 :: tail

/-- `SplitResult` from `bitcoin-splitter/src/split/script.rs`: the shards
and the intermediate state after each shard, as two parallel sequences. -/
structure SplitResult where
  shards : List (List Instr)
  intermediate_states : List IntermediateState

/-- `SplitResult::new`: plain construction from the two sequences. -/
def SplitResult.new (shards : List (List Instr))
    (intermediate_states : List IntermediateState) : SplitResult :=
  ⟨shards, intermediate_states⟩

/-- `SplitResult::len`: the number of intermediate states (and thus the
number of shards). -/
def SplitResult.len (r : SplitResult) : Nat :=
  r.intermediate_states.length

/-- Serialized byte length of a shard. -/
def shardBytes (sh : List Instr) : Nat :=
  (sh.map Instr.byteLen).sum

/-- Modelled from the spec: `naive_split` of
`bitcoin-splitter/src/split/core.rs` (not in the given sources) —
chunk the program by the policy's unit of measure, then derive the state
after each shard by sequential execution from the input state.  Splitting
fails on a zero-instruction program or a zero chunk size (caller errors),
and an interpreter failure propagates. -/
def naiveSplit (ty : SplitType) (c : Nat) (P : List Instr)
    (input : IntermediateState) : Option SplitResult :=
  if c = 0 then none
  else if P.isEmpty then none
  else
    let shards := naiveChunks (instrMeasure ty) c P
    (statesOf shards input).map fun sts => SplitResult.new shards sts

/-- The per-shard cost term of the complexity estimator:
`shard_byte_size[i] + (state_size[i] + state_size[i-1]) * STACK_SIZE_INDEX`
with `state_size[-1] = 0`.  The weight `ssi` stands for the
`STACK_SIZE_INDEX` constant of `bitcoin-splitter/src/split/core.rs` (not
in the given sources; the spec treats it as a tuning constant). -/
def complexityTerm (ssi : Nat) (r : SplitResult) (i : Nat) : Nat :=
  shardBytes (r.shards.getD i []) +
    ((r.intermediate_states.getD i ⟨[], []⟩).size +
      if i = 0 then 0 else (r.intermediate_states.getD (i - 1) ⟨[], []⟩).size) * ssi

/-- `SplitResult::complexity_index`: the running-maximum loop of the Rust
source, folding `resultant_complexity.max(term i)` over `0..len`. -/
def SplitResult.complexity_index (ssi : Nat) (r : SplitResult) : Nat :=
  (List.range r.len).foldl (fun acc i => Nat.max acc (complexityTerm ssi r i)) 0

/-- The complexity index as the spec words it: "for each shard i compute
the term, and return the maximum over all i" (0 for an empty result). -/
def complexityIndexSpec (ssi : Nat) (r : SplitResult) : Nat :=
  ((List.range r.len).map (complexityTerm ssi r)).foldr Nat.max 0

/-- The corruption applied by `SplitResult::distort` to the selected main
stack: push the whole stack back, `OP_DROP` the top element and push
`OP_0` in its place (the number 0 — the empty byte string — in the
script machine's encoding). -/
def distortStack (stack : List Nat) : List Nat :=
  0 :: stack.tail

/-- `SplitResult::distort`: picks the shard index `r mod len(shards)`
(the Rust source draws `r` from process randomness; it is passed
explicitly here), requires the selected state's main stack to be
non-empty, and replaces that state's top-of-stack element by 0.  The
modulo on an empty shard list and the failed non-emptiness assertion are
panics, modelled as `none`. -/
def SplitResult.distort (r : Nat) (sr : SplitResult) : Option (SplitResult × Nat) :=
  if sr.shards.length = 0 then none
  else
    let idx := r % sr.shards.length
    match sr.intermediate_states.get? idx with
    | none => none
    | some st =>
        if st.stack.isEmpty then none
        else
          some (⟨sr.shards,
                 sr.intermediate_states.set idx ⟨distortStack st.stack, st.altstack⟩⟩,
                idx)

/-!
## Winternitz one-time signatures for `u32` messages
(`bitcoin-winternitz/src/u32.rs`).  The `Hash160` hash function and the
seed-expanding random generator are external primitives (spec section 1);
they are passed in as the parameters `H` (one hash application on a
digest, digests modelled as `Nat`) and `prg` (the stream of digests the
seeded generator produces: `prg seed i` is the i-th drawn digest).
-/

namespace Winternitz

/-- Fixed value of `d` from the source. -/
def D : Nat := 15

/-- `BITS_PER_DIGIT = (D + 1).ilog2()`. -/
def BITS_PER_DIGIT : Nat := Nat.log2 (D + 1)

/-- Number of bits in the message, `V = 31`. -/
def V : Nat := 31

/-- `N0 = V.div_ceil(BITS_PER_DIGIT)`: partitions without checksum. -/
def N0 : Nat := (V + BITS_PER_DIGIT - 1) / BITS_PER_DIGIT

/-- `N1 = (D * N0).ilog(D + 1) + 1`: checksum partitions. -/
def N1 : Nat := Nat.log (D + 1) (D * N0) + 1

/-- `N = N0 + N1`: total number of partitions. -/
def N : Nat := N0 + N1

/-- A message partition: `N` digit values (`[u8; N]` in the source). -/
abbrev Message : Type := List Nat

/-- `Message::from_u32`: split the message into `N0` four-bit digits
(least significant first, mask `0xF`, shift by `BITS_PER_DIGIT`), then
append the checksum `D * N0 - sum` as its low and high nibble. -/
def Message.fromU32 (msg : Nat) : Message :=
  let limbs := (List.range N0).map fun i => msg / 2 ^ (BITS_PER_DIGIT * i) % (D + 1)
  let checksum := D * N0 - limbs.sum
  limbs ++ [checksum % 16, checksum / 16]

/-- A secret key: `N` digest chunks (`[Hash160; N]`). -/
abbrev SecretKey : Type := List Nat

/-- `SecretKey::from_seed`: seed the external generator and draw the `N`
chunks from it. -/
def SecretKey.fromSeed (prg : Nat → Nat → Nat) (seed : Nat) : SecretKey :=
  (List.range N).map (prg seed)

/-- `SecretKey::public_key`: hash every chunk `D` times. -/
def SecretKey.publicKey (H : Nat → Nat) (sk : SecretKey) : List Nat :=
  sk.map fun chunk => H^[D] chunk

/-- A signature: the intermediate hashes together with the message. -/
structure Signature where
  sig : List Nat
  msg : Message
  deriving Repr, DecidableEq

/-- `SecretKey::sign`: hash the idx-th chunk `msg[idx]` times. -/
def SecretKey.sign (H : Nat → Nat) (sk : SecretKey) (msg : Message) : Signature :=
  ⟨(sk.zip msg).map fun p => H^[p.2] p.1, msg⟩

/-- `Signature::to_script_sig`: push, for each partition index, the pair
of the signature chunk and the message digit — checksum indices
`N0..N0+N1` in reverse first, then the digit indices `0..N0` in
reverse. -/
def Signature.toScriptSig (s : Signature) : List (Nat × Nat) :=
  (((List.range N1).map (· + N0)).reverse ++ (List.range N0).reverse).map
    fun i => (s.sig.getD i 0, s.msg.getD i 0)

end Winternitz

/-!
## State signing (`core/src/disprove/signing.rs`)
-/

/-- `MAX_STACK_ELEMENT_VALUE = (1 << 31) - 1`. -/
def MAX_STACK_ELEMENT_VALUE : Nat := 2 ^ 31 - 1

/-- `SignedStackElement`: a stack element together with its encoding,
key pair and signature. -/
structure SignedStackElement where
  stack_element : Nat
  encoding : Winternitz.Message
  public_key : List Nat
  secret_key : Winternitz.SecretKey
  signature : Winternitz.Signature
  deriving Repr, DecidableEq

/-- `SignedStackElement::sign_with_secret_key`: derive the public key,
encode the element and sign it. -/
def SignedStackElement.signWithSecretKey (H : Nat → Nat)
    (sk : Winternitz.SecretKey) (el : Nat) : SignedStackElement :=
  ⟨el, Winternitz.Message.fromU32 el, Winternitz.SecretKey.publicKey H sk, sk,
    Winternitz.SecretKey.sign H sk (Winternitz.Message.fromU32 el)⟩

/-- `SignedStackElement::sign_with_seed`: the secret key is derived from
the seed and used to sign the element. -/
def SignedStackElement.signWithSeed (H : Nat → Nat) (prg : Nat → Nat → Nat)
    (el : Nat) (seed : Nat) : SignedStackElement :=
  SignedStackElement.signWithSecretKey H (Winternitz.SecretKey.fromSeed prg seed) el

/-- `SignedIntermediateState`: the signed elements of both stacks. -/
structure SignedIntermediateState where
  stack : List SignedStackElement
  altstack : List SignedStackElement
  deriving Repr, DecidableEq

/-- `SignedIntermediateState::sign_fn`: verify that every element of the
main stack and the altstack is at most `MAX_STACK_ELEMENT_VALUE` (the
`assert!` — a failure is modelled as `none`), then sign each element
with the provided signing function. -/
def SignedIntermediateState.signFn (f : Nat → SignedStackElement)
    (state : IntermediateState) : Option SignedIntermediateState :=
  if (state.stack ++ state.altstack).all (· ≤ MAX_STACK_ELEMENT_VALUE) then
    some ⟨state.stack.map f, state.altstack.map f⟩
  else
    none

/-- `SignedIntermediateState::sign_with_seed`: sign every element with the
key derived from the one provided seed. -/
def SignedIntermediateState.signWithSeed (H : Nat → Nat) (prg : Nat → Nat → Nat)
    (state : IntermediateState) (seed : Nat) : Option SignedIntermediateState :=
  SignedIntermediateState.signFn
    (fun el => SignedStackElement.signWithSeed H prg el seed) state

/-- `SignedIntermediateState::sign`: the unseeded variant signs every
element with a key drawn from fresh process entropy; the drawn key is
passed explicitly here. -/
def SignedIntermediateState.signEntropy (H : Nat → Nat)
    (entropyKey : Winternitz.SecretKey)
    (state : IntermediateState) : Option SignedIntermediateState :=
  SignedIntermediateState.signFn
    (fun el => SignedStackElement.signWithSecretKey H entropyKey el) state

/-- `SignedIntermediateState::total_len`. -/
def SignedIntermediateState.totalLen (s : SignedIntermediateState) : Nat :=
  s.stack.length + s.altstack.length

/-- `SignedIntermediateState::witness_script`: push the zipped signature
and message of every signed element — the main stack in `Vec` order
(bottom to top, i.e. the reverse of our top-first lists), then the
altstack in reverse `Vec` order (top to bottom). -/
def SignedIntermediateState.witnessScript (s : SignedIntermediateState) :
    List (Nat × Nat) :=
  ((s.stack.reverse ++ s.altstack).map
    fun el => el.signature.toScriptSig).flatten

/-!
## Disprove script construction (`core/src/disprove/mod.rs`)

The taproot/transaction layer is external; a `DisproveScript` is the pair
of its witness data and the data the `script_pubkey` is generated from
(the two signed states and the shard program).
-/

/-- `DisproveScript`: witness script data plus the components the verifier
script is assembled from. -/
structure DisproveScript where
  script_witness : List (Nat × Nat)
  from_signed : SignedIntermediateState
  to_signed : SignedIntermediateState
  function : List Instr

/-- `DisproveScript::new_from_signed_states`: the witness pushes all
zipped signatures and messages of the `from` state, then of the `to`
state; the verifier script is assembled from the two signed states and
the shard program (its semantics is `disproveVerifierRun` below). -/
def DisproveScript.newFromSignedStates (fs ts : SignedIntermediateState)
    (function : List Instr) : DisproveScript :=
  ⟨fs.witnessScript ++ ts.witnessScript, fs, ts, function⟩

/-- `DisproveScript::new_with_seed`: sign both states with the seed
randomness, then build the script.  The `entropy` argument models the
ambient process randomness present at call time, which the seeded
variant never reads (the Rust body touches no entropy source). -/
def DisproveScript.newWithSeed (H : Nat → Nat) (prg : Nat → Nat → Nat)
    (entropy : Nat) (fromS toS : IntermediateState) (function : List Instr)
    (seed : Nat) : Option DisproveScript :=
  (SignedIntermediateState.signWithSeed H prg fromS seed).bind fun fs =>
    (SignedIntermediateState.signWithSeed H prg toS seed).map fun ts =>
      DisproveScript.newFromSignedStates fs ts function

/-- `DisproveScript::new`: sign both states with keys drawn from fresh
process entropy (the two drawn keys are passed explicitly), then build
the script. -/
def DisproveScript.newEntropy (H : Nat → Nat)
    (kFrom kTo : Winternitz.SecretKey) (fromS toS : IntermediateState)
    (function : List Instr) : Option DisproveScript :=
  (SignedIntermediateState.signEntropy H kFrom fromS).bind fun fs =>
    (SignedIntermediateState.signEntropy H kTo toS).map fun ts =>
      DisproveScript.newFromSignedStates fs ts function

/-!
## Semantics of the disprove verifier script

The `script_pubkey` assembled by `new_from_signed_states` is executed on
a two-stack machine.  The Winternitz checksig/recovery layer is the
external signature primitive: its contract (documented on
`verification_script*` in `core/src/disprove/signing.rs`) is that
verification consumes the witness and leaves the recovered committed
elements, so the machine semantics below starts after the witness has
been consumed and pushes the committed values directly.
-/

/-- A two-stack script machine: main stack and altstack, head = top. -/
structure Machine where
  main : List Nat
  alt : List Nat
  deriving Repr, DecidableEq

/-- `OP_TOALTSTACK` after recovering the value `v`. -/
def opToAlt (v : Nat) (m : Machine) : Machine :=
  ⟨m.main, v :: m.alt⟩

/-- `OP_FROMALTSTACK`: move the top of the altstack to the main stack. -/
def opFromAlt (m : Machine) : Machine :=
  match m.alt with
  | [] => m
  | a :: rest => ⟨a :: m.main, rest⟩

/-- `OP_LONGFROMALTSTACK(length)` (`bitcoin-utils/src/pseudo.rs`):
`OP_FROMALTSTACK` repeated `length` times. -/
def OP_LONGFROMALTSTACK (length : Nat) (m : Machine) : Machine :=
  opFromAlt^[length] m

/-- `OP_ROLL` with argument `k`: move the item `k` back in the stack to
the top. -/
def opRoll (k : Nat) (m : Machine) : Machine :=
  ⟨m.main.getD k 0 :: m.main.eraseIdx k, m.alt⟩

/-- Modelled from the spec: `OP_LONGNOTEQUAL(n)`
(`bitcoin-utils/src/comparison.rs` is not in the given sources) —
compare the two groups of `n` elements on top of the stack element-wise
and leave 1 if at least one element differs, 0 otherwise. -/
def OP_LONGNOTEQUAL (n : Nat) (m : Machine) : Machine :=
  let a := m.main.take n
  let rest := m.main.drop n
  let b := rest.take n
  ⟨(if a = b then 0 else 1) :: rest.drop n, m.alt⟩

/-- `OP_BOOLOR`: pop two items, push 1 if either is nonzero. -/
def opBoolOr (m : Machine) : Machine :=
  match m.main with
  | x :: y :: rest => ⟨(if x = 0 ∧ y = 0 then 0 else 1) :: rest, m.alt⟩
  | _ => m

/-- `SignedIntermediateState::verification_script_toaltstack`: for each
element of the altstack in `Vec` order (bottom to top — the reverse of
our top-first list), then for each element of the main stack in reverse
`Vec` order (our list order), verify the Winternitz signature, recover
the committed element and `OP_TOALTSTACK` it. -/
def verificationScriptToaltstack (s : IntermediateState) (m : Machine) : Machine :=
  (s.altstack.reverse ++ s.stack).foldl (fun mm v => opToAlt v mm) m

/-- `SignedIntermediateState::verification_script_fromaltstack`: pop the
main-stack elements (`self.stack.len()` of them) back from the
altstack. -/
def verificationScriptFromaltstack (s : IntermediateState) (m : Machine) : Machine :=
  OP_LONGFROMALTSTACK s.stack.length m

/-- `SignedIntermediateState::verification_script`: verification leaving
the original stack and altstack of the intermediate state. -/
def verificationScript (s : IntermediateState) (m : Machine) : Machine :=
  verificationScriptFromaltstack s (verificationScriptToaltstack s m)

/-- The shard program run by the verifier, as the interpreter-adapter
contract: it consumes the machine's main stack and the top
`fromAltLen` altstack elements — exactly the recovered from-state — and
leaves the state it computes, the deeper altstack content untouched. -/
def applyShard (f : IntermediateState → IntermediateState) (fromAltLen : Nat)
    (m : Machine) : Machine :=
  let z := f ⟨m.main, m.alt.take fromAltLen⟩
  ⟨z.stack, z.altstack ++ m.alt.drop fromAltLen⟩

/-- The verifier (`script_pubkey`) of `new_from_signed_states`, run on the
produced witness: each line mirrors one block of the Rust `script!`
macro invocation, with `f` the semantics of the shard program. -/
def disproveVerifierRun (f : IntermediateState → IntermediateState)
    (fromS toS : IntermediateState) : Machine :=
  let m1 := verificationScriptToaltstack toS ⟨[], []⟩
  let m2 := verificationScript fromS m1
  let m3 := applyShard f fromS.altstack.length m2
  let m4 := OP_LONGFROMALTSTACK toS.altstack.length m3
  let m5 := verificationScriptFromaltstack toS m4
  let m6 := (opRoll (toS.size + toS.stack.length - 1))^[toS.stack.length] m5
  let m7 := OP_LONGNOTEQUAL toS.stack.length m6
  let m8 := OP_LONGFROMALTSTACK toS.altstack.length m7
  let m9 := (opRoll (2 * toS.altstack.length))^[toS.altstack.length] m8
  let m10 := OP_LONGNOTEQUAL toS.altstack.length m9
  opBoolOr m10

/-- The verifier succeeds (the disprove path is spendable) when the final
top of the stack is nonzero. -/
def disproveSucceeds (f : IntermediateState → IntermediateState)
    (fromS toS : IntermediateState) : Bool :=
  (disproveVerifierRun f fromS toS).main.headD 0 ≠ 0

/-!
## Machine lemmas
-/

theorem foldl_opToAlt (l : List Nat) :
    ∀ m : Machine, l.foldl (fun mm v => opToAlt v mm) m = ⟨m.main, l.reverse ++ m.alt⟩ := by
  induction l with
  | nil => intro m; simp
  | cons x xs ih =>
      intro m
      rw [List.foldl_cons, ih (opToAlt x m)]
      simp [opToAlt]

theorem verificationScriptToaltstack_eq (s : IntermediateState) (m : Machine) :
    verificationScriptToaltstack s m =
      ⟨m.main, s.stack.reverse ++ s.altstack ++ m.alt⟩ := by
  simp only [verificationScriptToaltstack, foldl_opToAlt, List.reverse_append,
    List.reverse_reverse, List.append_assoc]

theorem longFromAltstack_block (A : List Nat) :
    ∀ (main R : List Nat),
      OP_LONGFROMALTSTACK A.length ⟨main, A ++ R⟩ = ⟨A.reverse ++ main, R⟩ := by
  induction A with
  | nil => intro main R; simp [OP_LONGFROMALTSTACK]
  | cons a A ih =>
      intro main R
      have step : opFromAlt ⟨main, (a :: A) ++ R⟩ = ⟨a :: main, A ++ R⟩ := by
        simp [opFromAlt]
      calc OP_LONGFROMALTSTACK (a :: A).length ⟨main, (a :: A) ++ R⟩
          = opFromAlt^[A.length] (opFromAlt ⟨main, (a :: A) ++ R⟩) := by
            simp [OP_LONGFROMALTSTACK, Function.iterate_succ_apply]
        _ = OP_LONGFROMALTSTACK A.length ⟨a :: main, A ++ R⟩ := by
            rw [step]; rfl
        _ = ⟨A.reverse ++ (a :: main), R⟩ := ih (a :: main) R
        _ = ⟨(a :: A).reverse ++ main, R⟩ := by
            simp [List.reverse_cons, List.append_assoc]

theorem getD_append_right_len (P Q : List Nat) (i : Nat) (d : Nat) :
    (P ++ Q).getD (P.length + i) d = Q.getD i d := by
  induction P with
  | nil => simp
  | cons p P ih =>
      simpa [List.length_cons, Nat.succ_add] using ih

theorem eraseIdx_append_right_len (P Q : List Nat) (i : Nat) :
    (P ++ Q).eraseIdx (P.length + i) = P ++ Q.eraseIdx i := by
  induction P with
  | nil => simp
  | cons p P ih =>
      simpa [List.length_cons, Nat.succ_add, List.eraseIdx] using ih

theorem roll_block (B : List Nat) :
    ∀ (P alt : List Nat),
      (opRoll (P.length + B.length - 1))^[B.length] ⟨P ++ B, alt⟩ = ⟨B ++ P, alt⟩ := by
  induction B using List.reverseRecOn with
  | nil => intro P alt; simp
  | append_singleton B b ih =>
      intro P alt
      have hidx : P.length + (B ++ [b]).length - 1 = (P ++ B).length + 0 := by
        simp only [List.length_append, List.length_cons, List.length_nil] <;> omega
      have hget : (P ++ (B ++ [b])).getD ((P ++ B).length + 0) 0 = b := by
        have := getD_append_right_len (P ++ B) [b] 0 0
        simpa [List.append_assoc] using this
      have herase : (P ++ (B ++ [b])).eraseIdx ((P ++ B).length + 0) = P ++ B := by
        have := eraseIdx_append_right_len (P ++ B) [b] 0
        simpa [List.append_assoc] using this
      have step : opRoll (P.length + (B ++ [b]).length - 1) ⟨P ++ (B ++ [b]), alt⟩ =
          ⟨(b :: P) ++ B, alt⟩ := by
        simp only [opRoll, hidx, hget, herase]
        simp
      have hlen : (B ++ [b]).length = B.length + 1 := by simp
      have hidx2 : P.length + (B ++ [b]).length - 1 = (b :: P).length + B.length - 1 := by
        simp only [List.length_append, List.length_cons, List.length_nil] <;> omega
      calc (opRoll (P.length + (B ++ [b]).length - 1))^[(B ++ [b]).length]
              ⟨P ++ (B ++ [b]), alt⟩
          = (opRoll (P.length + (B ++ [b]).length - 1))^[B.length]
              (opRoll (P.length + (B ++ [b]).length - 1) ⟨P ++ (B ++ [b]), alt⟩) := by
            rw [hlen, Function.iterate_succ_apply]
        _ = (opRoll ((b :: P).length + B.length - 1))^[B.length] ⟨(b :: P) ++ B, alt⟩ := by
            rw [step, hidx2]
        _ = ⟨B ++ (b :: P), alt⟩ := ih (b :: P) alt
        _ = ⟨(B ++ [b]) ++ P, alt⟩ := by simp

theorem longNotEqual_eq (n : Nat) (A B R : List Nat) (alt : List Nat)
    (hA : A.length = n) (hB : B.length = n) :
    OP_LONGNOTEQUAL n ⟨A ++ B ++ R, alt⟩ =
      ⟨(if A = B then 0 else 1) :: R, alt⟩ := by
  have htake : (A ++ (B ++ R)).take n = A := by
    rw [← hA]; exact List.take_left A (B ++ R)
  have hdrop : (A ++ (B ++ R)).drop n = B ++ R := by
    rw [← hA]; exact List.drop_left A (B ++ R)
  have htake2 : (B ++ R).take n = B := by
    rw [← hB]; exact List.take_left B R
  have hdrop2 : (B ++ R).drop n = R := by
    rw [← hB]; exact List.drop_left B R
  simp only [OP_LONGNOTEQUAL, List.append_assoc, htake, hdrop, htake2, hdrop2]

/-- Full evaluation of the disprove verifier on its own witness: the
machine terminates with the single element `1` exactly when the shard
output differs from the claimed `to` state in at least one region, `0`
when the claimed transition is correct.  The two length hypotheses say
the shard's output has the committed `to`-state shape (the protocol's
well-formedness condition for the comparison). -/
theorem disproveVerifierRun_eq (f : IntermediateState → IntermediateState)
    (fromS toS : IntermediateState)
    (hs : (f fromS).stack.length = toS.stack.length)
    (ha : (f fromS).altstack.length = toS.altstack.length) :
    disproveVerifierRun f fromS toS =
      ⟨[if (f fromS).stack = toS.stack ∧ (f fromS).altstack = toS.altstack
          then 0 else 1], []⟩ := by
  have m1eq : verificationScriptToaltstack toS ⟨[], []⟩ =
      ⟨[], toS.stack.reverse ++ toS.altstack⟩ := by
    rw [verificationScriptToaltstack_eq]; simp
  have m2eq : verificationScript fromS ⟨[], toS.stack.reverse ++ toS.altstack⟩ =
      ⟨fromS.stack, fromS.altstack ++ (toS.stack.reverse ++ toS.altstack)⟩ := by
    rw [verificationScript, verificationScriptToaltstack_eq]
    show OP_LONGFROMALTSTACK fromS.stack.length _ = _
    have := longFromAltstack_block fromS.stack.reverse []
      (fromS.altstack ++ (toS.stack.reverse ++ toS.altstack))
    simpa [List.append_assoc] using this
  have m3eq : applyShard f fromS.altstack.length
      ⟨fromS.stack, fromS.altstack ++ (toS.stack.reverse ++ toS.altstack)⟩ =
      ⟨(f fromS).stack, (f fromS).altstack ++ (toS.stack.reverse ++ toS.altstack)⟩ := by
    simp only [applyShard, List.take_left, List.drop_left]
  have m4eq : OP_LONGFROMALTSTACK toS.altstack.length
      ⟨(f fromS).stack, (f fromS).altstack ++ (toS.stack.reverse ++ toS.altstack)⟩ =
      ⟨(f fromS).altstack.reverse ++ (f fromS).stack,
        toS.stack.reverse ++ toS.altstack⟩ := by
    rw [← ha]
    exact longFromAltstack_block (f fromS).altstack (f fromS).stack
      (toS.stack.reverse ++ toS.altstack)
  have m5eq : verificationScriptFromaltstack toS
      ⟨(f fromS).altstack.reverse ++ (f fromS).stack,
        toS.stack.reverse ++ toS.altstack⟩ =
      ⟨toS.stack ++ ((f fromS).altstack.reverse ++ (f fromS).stack),
        toS.altstack⟩ := by
    show OP_LONGFROMALTSTACK toS.stack.length _ = _
    have hlen : toS.stack.length = toS.stack.reverse.length := by simp
    rw [hlen]
    have := longFromAltstack_block toS.stack.reverse
      ((f fromS).altstack.reverse ++ (f fromS).stack) toS.altstack
    simpa using this
  have m6eq : (opRoll (toS.size + toS.stack.length - 1))^[toS.stack.length]
      ⟨toS.stack ++ ((f fromS).altstack.reverse ++ (f fromS).stack), toS.altstack⟩ =
      ⟨(f fromS).stack ++ (toS.stack ++ (f fromS).altstack.reverse), toS.altstack⟩ := by
    have hidx : toS.size + toS.stack.length - 1 =
        (toS.stack ++ (f fromS).altstack.reverse).length + (f fromS).stack.length - 1 := by
      simp only [IntermediateState.size, List.length_append, List.length_reverse,
        hs, ha] <;> omega
    have hcnt : toS.stack.length = (f fromS).stack.length := hs.symm
    rw [hidx, hcnt]
    have := roll_block (f fromS).stack (toS.stack ++ (f fromS).altstack.reverse) toS.altstack
    simpa [List.append_assoc] using this
  have m7eq : OP_LONGNOTEQUAL toS.stack.length
      ⟨(f fromS).stack ++ (toS.stack ++ (f fromS).altstack.reverse), toS.altstack⟩ =
      ⟨(if (f fromS).stack = toS.stack then 0 else 1) :: (f fromS).altstack.reverse,
        toS.altstack⟩ := by
    have := longNotEqual_eq toS.stack.length (f fromS).stack toS.stack
      (f fromS).altstack.reverse toS.altstack hs rfl
    simpa [List.append_assoc] using this
  have m8eq : OP_LONGFROMALTSTACK toS.altstack.length
      ⟨(if (f fromS).stack = toS.stack then 0 else 1) :: (f fromS).altstack.reverse,
        toS.altstack⟩ =
      ⟨toS.altstack.reverse ++
          ((if (f fromS).stack = toS.stack then 0 else 1) :: (f fromS).altstack.reverse),
        []⟩ := by
    have := longFromAltstack_block toS.altstack
      ((if (f fromS).stack = toS.stack then 0 else 1) :: (f fromS).altstack.reverse) []
    simpa using this
  have m9eq : (opRoll (2 * toS.altstack.length))^[toS.altstack.length]
      ⟨toS.altstack.reverse ++
          ((if (f fromS).stack = toS.stack then 0 else 1) :: (f fromS).altstack.reverse),
        []⟩ =
      ⟨(f fromS).altstack.reverse ++
          (toS.altstack.reverse ++ [if (f fromS).stack = toS.stack then 0 else 1]),
        []⟩ := by
    have hidx : 2 * toS.altstack.length =
        (toS.altstack.reverse ++ [if (f fromS).stack = toS.stack then 0 else 1]).length +
          (f fromS).altstack.reverse.length - 1 := by
      simp only [List.length_append, List.length_reverse, List.length_cons,
        List.length_nil, ha] <;> omega
    have hcnt : toS.altstack.length = (f fromS).altstack.reverse.length := by
      simp [ha]
    rw [hidx, hcnt]
    have := roll_block (f fromS).altstack.reverse
      (toS.altstack.reverse ++ [if (f fromS).stack = toS.stack then 0 else 1]) []
    simpa [List.append_assoc] using this
  have m10eq : OP_LONGNOTEQUAL toS.altstack.length
      ⟨(f fromS).altstack.reverse ++
          (toS.altstack.reverse ++ [if (f fromS).stack = toS.stack then 0 else 1]),
        []⟩ =
      ⟨(if (f fromS).altstack = toS.altstack then 0 else 1) ::
          [if (f fromS).stack = toS.stack then 0 else 1], []⟩ := by
    have := longNotEqual_eq toS.altstack.length (f fromS).altstack.reverse
      toS.altstack.reverse [if (f fromS).stack = toS.stack then 0 else 1] []
      (by simp [ha]) (by simp)
    rw [List.append_assoc] at this
    simp only [List.reverse_inj] at this
    exact this
  simp only [disproveVerifierRun, m1eq, m2eq, m3eq, m4eq, m5eq, m6eq, m7eq, m8eq,
    m9eq, m10eq]
  by_cases h1 : (f fromS).stack = toS.stack <;>
    by_cases h2 : (f fromS).altstack = toS.altstack <;>
      simp [opBoolOr, h1, h2]

/-!
## Splitting lemmas
-/

theorem naiveChunksGo_flatten (μ : Instr → Nat) (c : Nat) :
    ∀ (l acc : List Instr) (k : Nat),
      (naiveChunksGo μ c l acc k).flatten = acc.reverse ++ l := by
  intro l
  induction l with
  | nil =>
      intro acc k
      by_cases h : acc.isEmpty
      · simp [naiveChunksGo, h, List.isEmpty_iff.mp h]
      · simp [naiveChunksGo, h]
  | cons i rest ih =>
      intro acc k
      by_cases h : c ≤ k + μ i
      · simp [naiveChunksGo, h, ih]
      · simp only [naiveChunksGo, if_neg h, ih (i :: acc) (k + μ i)]
        simp

theorem naiveChunks_flatten (μ : Instr → Nat) (c : Nat) (P : List Instr) :
    (naiveChunks μ c P).flatten = P := by
  simp [naiveChunks, naiveChunksGo_flatten]

theorem executeProgram_append (P Q : List Instr) :
    ∀ s : IntermediateState,
      executeProgram (P ++ Q) s = (executeProgram P s).bind (executeProgram Q) := by
  induction P with
  | nil => intro s; simp [executeProgram]
  | cons i rest ih =>
      intro s
      simp only [List.cons_append, executeProgram]
      cases i.run s with
      | none => simp
      | some s1 => simp [ih]

theorem foldl_executeProgram (shards : List (List Instr)) :
    ∀ os : Option IntermediateState,
      shards.foldl (fun o sh => o.bind (executeProgram sh)) os =
        os.bind (executeProgram shards.flatten) := by
  induction shards with
  | nil =>
      intro os
      cases os <;> simp [executeProgram]
  | cons sh rest ih =>
      intro os
      simp only [List.foldl_cons, ih, List.flatten_cons, executeProgram_append]
      cases os <;> simp

theorem statesOf_length :
    ∀ (shards : List (List Instr)) (s : IntermediateState)
      (sts : List IntermediateState),
      statesOf shards s = some sts → sts.length = shards.length := by
  intro shards
  induction shards with
  | nil =>
      intro s sts h
      simp [statesOf] at h
      simp [← h]
  | cons sh rest ih =>
      intro s sts h
      simp only [statesOf] at h
      cases hrun : executeProgram sh s with
      | none => rw [hrun] at h; simp at h
      | some s1 =>
          rw [hrun] at h
          simp only [Option.some_bind] at h
          cases htail : statesOf rest s1 with
          | none => rw [htail] at h; simp at h
          | some tail =>
              rw [htail] at h
              simp only [Option.map_some'] at h
              cases h
              simp [ih s1 tail htail]

/-- Inversion of `naiveSplit`: a produced split result consists of the
naive chunks of the program and the states of their sequential
execution. -/
theorem naiveSplit_inv (ty : SplitType) (c : Nat) (P : List Instr)
    (x : IntermediateState) (sr : SplitResult)
    (h : naiveSplit ty c P x = some sr) :
    c ≠ 0 ∧ P ≠ [] ∧ sr.shards = naiveChunks (instrMeasure ty) c P ∧
      statesOf sr.shards x = some sr.intermediate_states := by
  by_cases hc : c = 0
  · simp [naiveSplit, hc] at h
  by_cases hP : P.isEmpty
  · simp [naiveSplit, hc, hP] at h
  refine ⟨hc, by simpa [List.isEmpty_iff] using hP, ?_⟩
  simp only [naiveSplit, if_neg hc, if_neg hP] at h
  cases hst : statesOf (naiveChunks (instrMeasure ty) c P) x with
  | none => rw [hst] at h; simp at h
  | some sts =>
      rw [hst] at h
      simp only [Option.map_some'] at h
      cases h
      exact ⟨rfl, hst⟩

theorem foldl_max_eq_foldr (f : Nat → Nat) :
    ∀ (l : List Nat) (a0 : Nat),
      l.foldl (fun a i => Nat.max a (f i)) a0 = Nat.max a0 ((l.map f).foldr Nat.max 0) := by
  intro l
  induction l with
  | nil => intro a0; simp
  | cons x xs ih =>
      intro a0
      simp only [List.foldl_cons, ih, List.map_cons, List.foldr_cons]
      exact Nat.max_assoc a0 (f x) _

theorem foldr_max_le (l : List Nat) (M : Nat) (h : ∀ x ∈ l, x ≤ M) :
    l.foldr Nat.max 0 ≤ M := by
  induction l with
  | nil => simp
  | cons x xs ih =>
      simp only [List.foldr_cons]
      have hx := h x (by simp)
      have hxs := ih fun y hy => h y (by simp [hy])
      exact Nat.max_le.mpr ⟨hx, hxs⟩

theorem le_foldr_max (l : List Nat) (x : Nat) (h : x ∈ l) :
    x ≤ l.foldr Nat.max 0 := by
  induction l with
  | nil => simp at h
  | cons y ys ih =>
      simp only [List.foldr_cons]
      rcases List.mem_cons.mp h with h1 | h2
      · exact h1 ▸ Nat.le_max_left y (List.foldr Nat.max 0 ys)
      · exact le_trans (ih h2) (Nat.le_max_right y (List.foldr Nat.max 0 ys))

theorem getD_mem {α : Type} :
    ∀ (l : List α) (i : Nat) (d : α), i < l.length → l.getD i d ∈ l := by
  intro l
  induction l with
  | nil => intro i d h; simp at h
  | cons x xs ih =>
      intro i d h
      cases i with
      | zero => simp
      | succ j =>
          simp only [List.getD_cons_succ]
          exact List.mem_cons_of_mem x (ih j d (by simpa using h))

theorem chunksGo_length_le (c : Nat) (hc : 0 < c) :
    ∀ (l acc : List Instr), acc.length < c →
      ∀ ch ∈ naiveChunksGo (instrMeasure SplitType.ByInstructions) c l acc acc.length,
        ch.length ≤ c := by
  intro l
  induction l with
  | nil =>
      intro acc hacc ch hch
      simp only [naiveChunksGo] at hch
      by_cases h : acc.isEmpty
      · simp [h] at hch
      · simp only [h, if_neg] at hch
        simp only [Bool.false_eq_true, if_false, List.mem_singleton] at hch
        subst hch
        simpa using Nat.le_of_lt hacc
  | cons i rest ih =>
      intro acc hacc ch hch
      simp only [naiveChunksGo, instrMeasure] at hch
      by_cases h : c ≤ acc.length + 1
      · rw [if_pos h] at hch
        rcases List.mem_cons.mp hch with h1 | h2
        · subst h1; simpa using hacc
        · exact ih [] hc ch (by simpa using h2)
      · rw [if_neg h] at hch
        have : (i :: acc).length < c := by simp; omega
        have hk : acc.length + 1 = (i :: acc).length := by simp
        rw [hk] at hch
        exact ih (i :: acc) this ch hch

theorem chunksGo_getD_full (c : Nat) (hc : 0 < c) :
    ∀ (l acc : List Instr), acc.length < c →
      ∀ i, i + 1 < (naiveChunksGo (instrMeasure SplitType.ByInstructions) c l acc acc.length).length →
        ((naiveChunksGo (instrMeasure SplitType.ByInstructions) c l acc acc.length).getD i []).length = c := by
  intro l
  induction l with
  | nil =>
      intro acc hacc i hi
      simp only [naiveChunksGo] at hi
      by_cases h : acc.isEmpty <;> simp [h] at hi <;> omega
  | cons ins rest ih =>
      intro acc hacc i hi
      simp only [naiveChunksGo, instrMeasure] at hi ⊢
      by_cases h : c ≤ acc.length + 1
      · rw [if_pos h] at hi ⊢
        cases i with
        | zero =>
            simp only [List.getD_cons_zero]
            simp
            omega
        | succ j =>
            simp only [List.getD_cons_succ]
            have hj : j + 1 < (naiveChunksGo (instrMeasure SplitType.ByInstructions) c rest [] 0).length := by
              simpa using hi
            exact ih [] hc j hj
      · rw [if_neg h] at hi ⊢
        have hlt : (ins :: acc).length < c := by simp; omega
        have hk : acc.length + 1 = (ins :: acc).length := by simp
        rw [hk] at hi ⊢
        exact ih (ins :: acc) hlt i hi

theorem length_flatten_le (c : Nat) :
    ∀ l : List (List Instr), (∀ ch ∈ l, ch.length ≤ c) →
      l.flatten.length ≤ c * l.length := by
  intro l
  induction l with
  | nil => simp
  | cons ch rest ih =>
      intro h
      simp only [List.flatten_cons, List.length_append, List.length_cons]
      have h1 := h ch (by simp)
      have h2 := ih fun x hx => h x (by simp [hx])
      calc ch.length + rest.flatten.length ≤ c + c * rest.length := Nat.add_le_add h1 h2
        _ = c * (rest.length + 1) := by ring

theorem shardBytes_const (b : Nat) :
    ∀ ch : List Instr, (∀ x ∈ ch, x.byteLen = b) → shardBytes ch = ch.length * b := by
  intro ch
  induction ch with
  | nil => intro _; simp [shardBytes]
  | cons x xs ih =>
      intro h
      simp only [shardBytes, List.map_cons, List.sum_cons, List.length_cons]
      have h1 := h x (by simp)
      have h2 := ih fun y hy => h y (by simp [hy])
      simp only [shardBytes] at h2
      rw [h1, h2]; ring

/-- The shared bridge between the running-maximum loop of
`complexity_index` and the maximum over all per-shard terms. -/
theorem complexity_index_eq_max (ssi : Nat) (r : SplitResult) :
    SplitResult.complexity_index ssi r = complexityIndexSpec ssi r := by
  rw [SplitResult.complexity_index, complexityIndexSpec,
    foldl_max_eq_foldr (complexityTerm ssi r) (List.range r.len) 0]
  exact Nat.zero_max _

/-- Under uniform instruction byte lengths and uniform state sizes, and
with more than two shards, the complexity index of a by-instruction-count
split is exactly `chunk_size * b + 2 * s * STACK_SIZE_INDEX`. -/
theorem complexity_uniform (ssi c b s : Nat) (P : List Instr)
    (x : IntermediateState) (r : SplitResult)
    (hsplit : naiveSplit SplitType.ByInstructions c P x = some r)
    (hb : ∀ ins ∈ P, ins.byteLen = b)
    (hst : ∀ st ∈ r.intermediate_states, st.size = s)
    (hn : 2 * c < P.length) :
    SplitResult.complexity_index ssi r = c * b + 2 * s * ssi := by
  obtain ⟨hc0, hPne, hsh, hsts⟩ := naiveSplit_inv _ _ _ _ _ hsplit
  have hc : 0 < c := Nat.pos_of_ne_zero hc0
  have hlen : r.intermediate_states.length = r.shards.length :=
    statesOf_length _ _ _ hsts
  have hflat : r.shards.flatten = P := by
    rw [hsh]; exact naiveChunks_flatten _ _ _
  have hle : ∀ ch ∈ r.shards, ch.length ≤ c := by
    rw [hsh]
    intro ch hch
    exact chunksGo_length_le c hc P [] (by simpa using hc) ch hch
  have hfull : ∀ i, i + 1 < r.shards.length → (r.shards.getD i []).length = c := by
    rw [hsh]
    intro i hi
    exact chunksGo_getD_full c hc P [] (by simpa using hc) i hi
  have hK : 3 ≤ r.shards.length := by
    have h1 : P.length ≤ c * r.shards.length := by
      rw [← hflat]
      exact length_flatten_le c r.shards hle
    have h2 : c * 2 < c * r.shards.length := by
      calc c * 2 = 2 * c := by ring
        _ < P.length := hn
        _ ≤ c * r.shards.length := h1
    have := Nat.lt_of_mul_lt_mul_left h2
    omega
  have hbyte : ∀ i, i < r.shards.length → shardBytes (r.shards.getD i []) ≤ c * b := by
    intro i hi
    have hmem : r.shards.getD i [] ∈ r.shards := getD_mem _ _ _ hi
    have hinstr : ∀ ins ∈ r.shards.getD i [], ins.byteLen = b := by
      intro ins hins
      exact hb ins (by rw [← hflat]; exact List.mem_flatten.mpr ⟨_, hmem, hins⟩)
    rw [shardBytes_const b _ hinstr]
    exact Nat.mul_le_mul_right b (hle _ hmem)
  have hsize : ∀ i, i < r.intermediate_states.length →
      (r.intermediate_states.getD i ⟨[], []⟩).size = s := by
    intro i hi
    exact hst _ (getD_mem _ _ _ hi)
  rw [complexity_index_eq_max]
  have hub : ∀ t ∈ (List.range r.len).map (complexityTerm ssi r), t ≤ c * b + 2 * s * ssi := by
    intro t ht
    obtain ⟨i, hi, rfl⟩ := List.mem_map.mp ht
    have hilen : i < r.len := List.mem_range.mp hi
    have hish : i < r.shards.length := by
      rw [← hlen]; exact hilen
    have h1 := hbyte i hish
    have h2 := hsize i hilen
    rw [complexityTerm, h2]
    by_cases h0 : i = 0
    · subst h0
      simp only [eq_self_iff_true, if_true, Nat.add_zero]
      have h3 : s * ssi ≤ 2 * s * ssi := by
        have hs2 : s ≤ 2 * s := by omega
        exact Nat.mul_le_mul_right ssi hs2
      omega
    · rw [if_neg h0]
      have hprev : i - 1 < r.intermediate_states.length := by omega
      rw [hsize (i - 1) hprev]
      have : (s + s) * ssi = 2 * s * ssi := by ring
      omega
  have hmem1 : complexityTerm ssi r 1 ∈ (List.range r.len).map (complexityTerm ssi r) := by
    apply List.mem_map_of_mem
    apply List.mem_range.mpr
    rw [SplitResult.len, hlen]
    omega
  have hterm1 : complexityTerm ssi r 1 = c * b + 2 * s * ssi := by
    rw [complexityTerm]
    have h1 : (r.shards.getD 1 []).length = c := hfull 1 (by omega)
    have hinstr : ∀ ins ∈ r.shards.getD 1 [], ins.byteLen = b := by
      intro ins hins
      have hmem : r.shards.getD 1 [] ∈ r.shards := getD_mem _ _ _ (by omega)
      exact hb ins (by rw [← hflat]; exact List.mem_flatten.mpr ⟨_, hmem, hins⟩)
    rw [shardBytes_const b _ hinstr, h1]
    have hs1 : (r.intermediate_states.getD 1 ⟨[], []⟩).size = s :=
      hsize 1 (by omega)
    have hs0 : (r.intermediate_states.getD 0 ⟨[], []⟩).size = s :=
      hsize 0 (by omega)
    simp only [if_neg (by omega : (1 : Nat) ≠ 0)]
    rw [hs1, hs0]
    ring
  apply Nat.le_antisymm
  · exact foldr_max_le _ _ hub
  · rw [← hterm1]
    exact le_foldr_max _ _ hmem1

theorem signFn_isSome (f : Nat → SignedStackElement) (st : IntermediateState) :
    (SignedIntermediateState.signFn f st).isSome = true ↔
      ∀ el ∈ st.stack ++ st.altstack, el ≤ MAX_STACK_ELEMENT_VALUE := by
  rw [SignedIntermediateState.signFn]
  by_cases h : (st.stack ++ st.altstack).all (· ≤ MAX_STACK_ELEMENT_VALUE) = true
  · simp only [if_pos h, Option.isSome_some, true_iff]
    intro el hel
    exact of_decide_eq_true (List.all_eq_true.mp h el hel)
  · rw [if_neg h]
    simp only [Option.isSome_none, Bool.false_eq_true, false_iff]
    intro hall
    exact h (List.all_eq_true.mpr fun el hel => decide_eq_true (hall el hel))

theorem bind_map_isSome (o1 o2 : Option SignedIntermediateState)
    (g : SignedIntermediateState → SignedIntermediateState → DisproveScript) :
    (o1.bind fun a => o2.map fun bb => g a bb).isSome = true ↔
      o1.isSome = true ∧ o2.isSome = true := by
  cases o1 <;> cases o2 <;> simp

/-!
## Concrete instructions and states used to evaluate the theorems
(the analogue of the repository's `bitcoin-testscripts` programs)
-/

/-- A 1-byte instruction that pushes ten `1` elements onto the main
stack. -/
def pushTenInstr : Instr :=
  ⟨1, fun z => some ⟨List.replicate 10 1 ++ z.stack, z.altstack⟩⟩

/-- A 1-byte instruction that drops ten elements from the main stack. -/
def dropTenInstr : Instr :=
  ⟨1, fun z => some ⟨z.stack.drop 10, z.altstack⟩⟩

/-- A 1-byte instruction that leaves the state untouched. -/
def idInstr : Instr := ⟨1, fun z => some z⟩

/-- A program whose mid-point state is large (ten elements) while its
start and end states are empty. -/
def peakProgram : List Instr := [pushTenInstr, dropTenInstr]

/-- A program of seven identity instructions: every intermediate state
equals the input state. -/
def flatProgram : List Instr := List.replicate 7 idInstr

/-- A shard semantics that adds one to every main-stack element. -/
def bumpShard : IntermediateState → IntermediateState :=
  fun z => ⟨z.stack.map (· + 1), z.altstack⟩

/-- A split result whose only state has the corruption sentinel `0` on
top of its main stack. -/
def sentinelSplit : SplitResult := ⟨[[idInstr]], [⟨[0], [5]⟩]⟩

/-- A split result whose only state has an empty main stack. -/
def emptyStackSplit : SplitResult := ⟨[[idInstr]], [⟨[], [5]⟩]⟩

/-- Inversion of `SplitResult.distort`: a successful distortion selected
an in-range index whose state has a non-empty main stack, and replaced
exactly that state's top-of-stack element by the sentinel. -/
theorem distort_inv (rnd : Nat) (sr sr2 : SplitResult) (i : Nat)
    (h : SplitResult.distort rnd sr = some (sr2, i)) :
    sr.shards.length ≠ 0 ∧ i = rnd % sr.shards.length ∧
      ∃ st, sr.intermediate_states.get? i = some st ∧ st.stack ≠ [] ∧
        sr2 = ⟨sr.shards,
          sr.intermediate_states.set i ⟨distortStack st.stack, st.altstack⟩⟩ := by
  by_cases h0 : sr.shards.length = 0
  · rw [SplitResult.distort, if_pos h0] at h
    simp at h
  simp only [SplitResult.distort, if_neg h0] at h
  refine ⟨h0, ?_⟩
  cases hget : sr.intermediate_states.get? (rnd % sr.shards.length) with
  | none => rw [hget] at h; simp at h
  | some st =>
      rw [hget] at h
      dsimp only at h
      by_cases hemp : st.stack.isEmpty
      · rw [if_pos hemp] at h; simp at h
      · rw [if_neg hemp] at h
        simp only [Option.some_inj, Prod.mk.injEq] at h
        obtain ⟨hsr2, hi⟩ := h
        subst hi
        exact ⟨rfl, st, hget, by simpa [List.isEmpty_iff] using hemp, hsr2.symm⟩

/-!
## Claims
-/

/-- C1: the disprove verifier produced by
`DisproveScript::new_from_signed_states`, run with the produced witness,
is satisfiable iff at least one element of the shard output `f(from)`
differs from the claimed `to` state — main-stack region mismatch or
alt-stack region mismatch; when the claimed transition is correct no
input makes the verifier succeed. -/
theorem disprove_spendable_iff_transition_incorrect
    (f : IntermediateState → IntermediateState) (fromS toS : IntermediateState)
    (hs : (f fromS).stack.length = toS.stack.length)
    (ha : (f fromS).altstack.length = toS.altstack.length) :
    (disproveSucceeds f fromS toS = true ↔
      ((f fromS).stack ≠ toS.stack ∨ (f fromS).altstack ≠ toS.altstack)) ∧
    (f fromS = toS → disproveSucceeds f fromS toS = false) := by
  have hrun := disproveVerifierRun_eq f fromS toS hs ha
  constructor
  · rw [disproveSucceeds, hrun]
    by_cases h1 : (f fromS).stack = toS.stack <;>
      by_cases h2 : (f fromS).altstack = toS.altstack <;>
        simp [h1, h2]
  · intro heq
    rw [disproveSucceeds, hrun]
    simp [heq]

theorem disprove_spendable_iff_transition_incorrect_witness :
    disproveSucceeds bumpShard ⟨[5], [7]⟩ ⟨[9], [7]⟩ = true ∧
    disproveSucceeds bumpShard ⟨[5], [7]⟩ ⟨[6], [7]⟩ = false :=
  ⟨(disprove_spendable_iff_transition_incorrect bumpShard ⟨[5], [7]⟩ ⟨[9], [7]⟩
      (by decide) (by decide)).1.mpr (Or.inl (by decide)),
   (disprove_spendable_iff_transition_incorrect bumpShard ⟨[5], [7]⟩ ⟨[6], [7]⟩
      (by decide) (by decide)).2 (by decide)⟩

/-- C2: for every program, input and split policy with any positive chunk
size, executing the shards produced by the naive split sequentially from
the input — each shard against the state left by the previous one —
yields exactly the terminal state of executing the program directly. -/
theorem naive_split_replay (ty : SplitType) (c : Nat) (P : List Instr)
    (x : IntermediateState) (sr : SplitResult)
    (h : naiveSplit ty c P x = some sr) :
    sr.shards.foldl (fun os sh => os.bind (executeProgram sh)) (some x) =
      executeProgram P x := by
  obtain ⟨-, -, hsh, -⟩ := naiveSplit_inv _ _ _ _ _ h
  rw [foldl_executeProgram, hsh, naiveChunks_flatten]
  rfl

theorem naive_split_replay_witness :
    ([[pushTenInstr], [dropTenInstr]] : List (List Instr)).foldl
        (fun os sh => os.bind (executeProgram sh)) (some ⟨[], []⟩) =
      executeProgram peakProgram ⟨[], []⟩ :=
  naive_split_replay SplitType.ByInstructions 1 peakProgram ⟨[], []⟩
    (SplitResult.new [[pushTenInstr], [dropTenInstr]]
      [⟨List.replicate 10 1, []⟩, ⟨[], []⟩]) rfl

/-- C3: `complexity_index` returns the maximum over all shard indices of
`shard_byte_size[i] + (state_size[i] + state_size[i-1]) * STACK_SIZE_INDEX`
with `state_size[-1] = 0`, and 0 for an empty split result. -/
theorem complexity_index_formula (ssi : Nat) (r : SplitResult)
    (h : r.shards.length = r.intermediate_states.length) :
    SplitResult.complexity_index ssi r = complexityIndexSpec ssi r ∧
      (r.intermediate_states = [] → SplitResult.complexity_index ssi r = 0) := by
  refine ⟨complexity_index_eq_max ssi r, fun he => ?_⟩
  simp [SplitResult.complexity_index, SplitResult.len, he]

theorem complexity_index_formula_witness :
    SplitResult.complexity_index 10 ⟨[[pushTenInstr]], [⟨List.replicate 10 1, []⟩]⟩ =
      complexityIndexSpec 10 ⟨[[pushTenInstr]], [⟨List.replicate 10 1, []⟩]⟩ :=
  (complexity_index_formula 10 ⟨[[pushTenInstr]], [⟨List.replicate 10 1, []⟩]⟩
    (by decide)).1

/-- C4 counterexample: `SplitResult::new` stores the two sequences
without any check, so construction from unequal-length sequences yields
a `SplitResult` violating the length invariant. -/
theorem split_result_new_unequal_cex :
    (SplitResult.new [[idInstr]] []).shards.length ≠
      (SplitResult.new [[idInstr]] []).intermediate_states.length := by
  decide

/-- C4 (amended): `len(shards) == len(intermediate_states)` is
established by the splitting engine, preserved by plain construction
when the constructor is given equal-length sequences, and preserved by
distortion. -/
theorem split_result_length_invariant :
    (∀ (ty : SplitType) (c : Nat) (P : List Instr) (x : IntermediateState)
        (sr : SplitResult), naiveSplit ty c P x = some sr →
          sr.shards.length = sr.intermediate_states.length) ∧
    (∀ (shards : List (List Instr)) (sts : List IntermediateState),
        shards.length = sts.length →
          (SplitResult.new shards sts).shards.length =
            (SplitResult.new shards sts).intermediate_states.length) ∧
    (∀ (rnd : Nat) (sr sr2 : SplitResult) (i : Nat),
        sr.shards.length = sr.intermediate_states.length →
          SplitResult.distort rnd sr = some (sr2, i) →
            sr2.shards.length = sr2.intermediate_states.length) := by
  refine ⟨?_, ?_, ?_⟩
  · intro ty c P x sr h
    obtain ⟨-, -, -, hsts⟩ := naiveSplit_inv _ _ _ _ _ h
    exact (statesOf_length _ _ _ hsts).symm
  · intro shards sts h
    exact h
  · intro rnd sr sr2 i hlen h
    obtain ⟨-, -, st, -, -, heq⟩ := distort_inv rnd sr sr2 i h
    subst heq
    simpa using hlen

theorem split_result_length_invariant_witness :
    (([[pushTenInstr], [dropTenInstr]] : List (List Instr)).length =
        ([⟨List.replicate 10 1, []⟩, ⟨[], []⟩] : List IntermediateState).length) ∧
    ((SplitResult.new [[idInstr]] [⟨[1], []⟩]).shards.length =
        (SplitResult.new [[idInstr]] [⟨[1], []⟩]).intermediate_states.length) :=
  ⟨split_result_length_invariant.1 SplitType.ByInstructions 1 peakProgram ⟨[], []⟩
      (SplitResult.new [[pushTenInstr], [dropTenInstr]]
        [⟨List.replicate 10 1, []⟩, ⟨[], []⟩]) rfl,
   split_result_length_invariant.2.1 [[idInstr]] [⟨[1], []⟩] (by decide)⟩

/-- C5 counterexample: on a state whose top-of-stack element already is
the sentinel value 0 (the empty byte string), `distort` succeeds — the
selected main stack is non-empty — yet the corrupted state equals the
original, so the "unequal at the mutated position" part of the claim
fails. -/
theorem distort_breaks_value_cex :
    (sentinelSplit.intermediate_states.getD 0 ⟨[], []⟩).stack ≠ [] ∧
    SplitResult.distort 0 sentinelSplit = some (sentinelSplit, 0) :=
  ⟨by decide, rfl⟩

/-- C5 (amended): after a successful `distort`, the returned index is in
`[0, len)`, the shards are unchanged, every other state is unchanged, and
the corrupted state keeps its element count; it differs from the original
at the mutated top-of-stack position provided the original top element is
not already the sentinel value 0. -/
theorem distort_shape_amended (rnd : Nat) (sr sr2 : SplitResult) (i : Nat)
    (h : SplitResult.distort rnd sr = some (sr2, i)) :
    i < sr.shards.length ∧ sr2.shards = sr.shards ∧
    (∀ j, j ≠ i → sr2.intermediate_states.get? j = sr.intermediate_states.get? j) ∧
    ∃ st, sr.intermediate_states.get? i = some st ∧
      sr2.intermediate_states.get? i =
        some ⟨distortStack st.stack, st.altstack⟩ ∧
      (IntermediateState.mk (distortStack st.stack) st.altstack).size = st.size ∧
      (st.stack.headD 0 ≠ 0 →
        IntermediateState.mk (distortStack st.stack) st.altstack ≠ st) := by
  obtain ⟨h0, hi, st, hget, hne, heq⟩ := distort_inv rnd sr sr2 i h
  subst heq
  obtain ⟨hlt, -⟩ := List.get?_eq_some.mp hget
  refine ⟨hi ▸ Nat.mod_lt _ (Nat.pos_of_ne_zero h0), rfl, ?_, st, hget, ?_, ?_, ?_⟩
  · intro j hj
    exact List.get?_set_ne _ _ (fun hcon => hj hcon.symm)
  · exact List.get?_set_eq_of_lt _ hlt
  · obtain ⟨top, rest, hrest⟩ := List.exists_cons_of_ne_nil hne
    simp [IntermediateState.size, distortStack, hrest]
  · intro htop hcon
    obtain ⟨top, rest, hrest⟩ := List.exists_cons_of_ne_nil hne
    rw [hrest] at hcon htop
    simp only [distortStack, List.tail_cons, List.headD_cons] at hcon htop
    have := congrArg IntermediateState.stack hcon
    simp only at this
    rw [hrest] at this
    exact htop (List.cons_eq_cons.mp this).1.symm

theorem distort_shape_amended_witness :
    (0 : Nat) < ([[idInstr]] : List (List Instr)).length ∧
      (⟨[[idInstr]], [⟨[0, 9], [5]⟩]⟩ : SplitResult).shards = [[idInstr]] :=
  let happ := distort_shape_amended 3 ⟨[[idInstr]], [⟨[8, 9], [5]⟩]⟩
    ⟨[[idInstr]], [⟨[0, 9], [5]⟩]⟩ 0 rfl
  ⟨happ.1, happ.2.1⟩

/-- C6: the seeded disprove-script construction is a pure function of the
seed, the two states and the shard program: two calls at different
ambient process-entropy values return identical artifacts, and in
particular byte-identical witness scripts. -/
theorem seeded_construction_deterministic (H : Nat → Nat)
    (prg : Nat → Nat → Nat) (e1 e2 seed : Nat)
    (fromS toS : IntermediateState) (fn : List Instr) :
    DisproveScript.newWithSeed H prg e1 fromS toS fn seed =
      DisproveScript.newWithSeed H prg e2 fromS toS fn seed ∧
    (DisproveScript.newWithSeed H prg e1 fromS toS fn seed).map
        DisproveScript.script_witness =
      (DisproveScript.newWithSeed H prg e2 fromS toS fn seed).map
        DisproveScript.script_witness :=
  ⟨rfl, rfl⟩

/-- C7: `distort` fails fast — it aborts and produces nothing — whenever
the randomly selected shard's pre-corruption state has an empty main
stack. -/
theorem distort_empty_stack_fails (rnd : Nat) (sr : SplitResult)
    (st : IntermediateState)
    (hget : sr.intermediate_states.get? (rnd % sr.shards.length) = some st)
    (hst : st.stack = []) :
    SplitResult.distort rnd sr = none := by
  by_cases h0 : sr.shards.length = 0
  · rw [SplitResult.distort, if_pos h0]
  · simp only [SplitResult.distort, if_neg h0]
    rw [hget]
    dsimp only
    rw [if_pos (by simp [hst])]

theorem distort_empty_stack_fails_witness :
    SplitResult.distort 0 emptyStackSplit = none :=
  distort_empty_stack_fails 0 emptyStackSplit ⟨[], [5]⟩ rfl rfl

/-- C8 counterexample: for the two-instruction program that builds a
ten-element stack and then drops it, shrinking the chunk size from 2 to 1
raises the complexity index from 2 to 101 (with weight 10), so the index
is not non-increasing as the chunk size decreases. -/
theorem complexity_monotonicity_cex :
    (1 : Nat) ≤ 2 ∧
    (naiveSplit SplitType.ByInstructions 1 peakProgram ⟨[], []⟩).map
        (SplitResult.complexity_index 10) = some 101 ∧
    (naiveSplit SplitType.ByInstructions 2 peakProgram ⟨[], []⟩).map
        (SplitResult.complexity_index 10) = some 2 ∧
    ¬ (101 : Nat) ≤ 2 :=
  ⟨by decide, rfl, rfl, by decide⟩

/-- C8 (amended): the complexity index is not monotone in the chunk size
in general (see the counterexample); it is non-increasing as the chunk
size decreases for by-instruction-count splits of programs with uniform
instruction byte length and uniform intermediate-state sizes, as long as
the coarser chunk size still yields at least three shards. -/
theorem complexity_monotone_uniform_chunks (ssi c1 c2 b s : Nat)
    (P : List Instr) (x : IntermediateState) (r1 r2 : SplitResult)
    (h1 : naiveSplit SplitType.ByInstructions c1 P x = some r1)
    (h2 : naiveSplit SplitType.ByInstructions c2 P x = some r2)
    (hb : ∀ ins ∈ P, ins.byteLen = b)
    (hst1 : ∀ st ∈ r1.intermediate_states, st.size = s)
    (hst2 : ∀ st ∈ r2.intermediate_states, st.size = s)
    (hc12 : c1 ≤ c2) (hn : 2 * c2 < P.length) :
    SplitResult.complexity_index ssi r1 ≤ SplitResult.complexity_index ssi r2 := by
  have hn1 : 2 * c1 < P.length := by omega
  rw [complexity_uniform ssi c1 b s P x r1 h1 hb hst1 hn1,
    complexity_uniform ssi c2 b s P x r2 h2 hb hst2 hn]
  have hmul : c1 * b ≤ c2 * b := Nat.mul_le_mul_right b hc12
  omega

theorem complexity_monotone_uniform_chunks_witness :
    SplitResult.complexity_index 10
        ⟨[[idInstr, idInstr], [idInstr, idInstr], [idInstr, idInstr], [idInstr]],
          List.replicate 4 ⟨[2, 3], [4]⟩⟩ ≤
      SplitResult.complexity_index 10
        ⟨[[idInstr, idInstr, idInstr], [idInstr, idInstr, idInstr], [idInstr]],
          List.replicate 3 ⟨[2, 3], [4]⟩⟩ :=
  complexity_monotone_uniform_chunks 10 2 3 1 3 flatProgram ⟨[2, 3], [4]⟩
    ⟨[[idInstr, idInstr], [idInstr, idInstr], [idInstr, idInstr], [idInstr]],
      List.replicate 4 ⟨[2, 3], [4]⟩⟩
    ⟨[[idInstr, idInstr, idInstr], [idInstr, idInstr, idInstr], [idInstr]],
      List.replicate 3 ⟨[2, 3], [4]⟩⟩
    rfl rfl (by decide) (by decide) (by decide) (by decide) (by decide)

theorem signWithSeed_mem (H : Nat → Nat) (prg : Nat → Nat → Nat)
    (st : IntermediateState) (seed : Nat) (s : SignedIntermediateState)
    (h : SignedIntermediateState.signWithSeed H prg st seed = some s)
    (el : SignedStackElement) (hel : el ∈ s.stack ++ s.altstack) :
    el.secret_key = Winternitz.SecretKey.fromSeed prg seed ∧
      el.public_key =
        Winternitz.SecretKey.publicKey H (Winternitz.SecretKey.fromSeed prg seed) := by
  rw [SignedIntermediateState.signWithSeed, SignedIntermediateState.signFn] at h
  by_cases hcond :
      (st.stack ++ st.altstack).all (· ≤ MAX_STACK_ELEMENT_VALUE) = true
  · rw [if_pos hcond, Option.some_inj] at h
    subst h
    simp only [List.mem_append, List.mem_map] at hel
    rcases hel with ⟨x, -, rfl⟩ | ⟨x, -, rfl⟩ <;> exact ⟨rfl, rfl⟩
  · rw [if_neg hcond] at h
    simp at h

/-- C9: in the seeded signing path the same seed is reused for every
element: every element of both signed states of a seeded disprove-script
construction carries the identical Winternitz secret key derived from
that seed, and the identical public key — no per-element or per-state
key separation exists. -/
theorem seeded_signing_single_key_pair (H : Nat → Nat)
    (prg : Nat → Nat → Nat) (e seed : Nat)
    (fromS toS : IntermediateState) (fn : List Instr) (ds : DisproveScript)
    (h : DisproveScript.newWithSeed H prg e fromS toS fn seed = some ds) :
    ∀ el ∈ ds.from_signed.stack ++ ds.from_signed.altstack ++
        ds.to_signed.stack ++ ds.to_signed.altstack,
      el.secret_key = Winternitz.SecretKey.fromSeed prg seed ∧
      el.public_key =
        Winternitz.SecretKey.publicKey H (Winternitz.SecretKey.fromSeed prg seed) := by
  cases hf : SignedIntermediateState.signWithSeed H prg fromS seed with
  | none => rw [DisproveScript.newWithSeed, hf] at h; simp at h
  | some fs =>
      cases ht : SignedIntermediateState.signWithSeed H prg toS seed with
      | none => rw [DisproveScript.newWithSeed, hf, ht] at h; simp at h
      | some ts =>
          rw [DisproveScript.newWithSeed, hf, ht] at h
          simp only [Option.some_bind, Option.map_some', Option.some_inj] at h
          subst h
          intro el hel
          simp only [DisproveScript.newFromSignedStates, List.mem_append] at hel
          rcases hel with ((h1 | h2) | h3) | h4
          · exact signWithSeed_mem H prg fromS seed fs hf el
              (List.mem_append.mpr (Or.inl h1))
          · exact signWithSeed_mem H prg fromS seed fs hf el
              (List.mem_append.mpr (Or.inr h2))
          · exact signWithSeed_mem H prg toS seed ts ht el
              (List.mem_append.mpr (Or.inl h3))
          · exact signWithSeed_mem H prg toS seed ts ht el
              (List.mem_append.mpr (Or.inr h4))

theorem seeded_signing_single_key_pair_witness :
    (SignedStackElement.signWithSeed Nat.succ (fun s i => s + i) 1 3).secret_key =
      Winternitz.SecretKey.fromSeed (fun s i => s + i) 3 :=
  (seeded_signing_single_key_pair Nat.succ (fun s i => s + i) 0 3
    ⟨[1], []⟩ ⟨[2], []⟩ []
    (DisproveScript.newFromSignedStates
      ⟨[SignedStackElement.signWithSeed Nat.succ (fun s i => s + i) 1 3], []⟩
      ⟨[SignedStackElement.signWithSeed Nat.succ (fun s i => s + i) 2 3], []⟩ [])
    rfl
    (SignedStackElement.signWithSeed Nat.succ (fun s i => s + i) 1 3)
    (by simp [DisproveScript.newFromSignedStates])).1

/-- C10: constructing a disprove script, seeded or unseeded, requires
every element of both states to be at most `2^31 - 1` once decoded as a
u32: the construction fails (assertion) exactly when some element
exceeds the bound, and succeeds whenever all elements are within it. -/
theorem construction_requires_u31_elements (H : Nat → Nat)
    (prg : Nat → Nat → Nat) (e seed : Nat) (k1 k2 : Winternitz.SecretKey)
    (fromS toS : IntermediateState) (fn : List Instr) :
    ((DisproveScript.newWithSeed H prg e fromS toS fn seed).isSome = true ↔
      ((∀ el ∈ fromS.stack ++ fromS.altstack, el ≤ MAX_STACK_ELEMENT_VALUE) ∧
        (∀ el ∈ toS.stack ++ toS.altstack, el ≤ MAX_STACK_ELEMENT_VALUE))) ∧
    ((DisproveScript.newEntropy H k1 k2 fromS toS fn).isSome = true ↔
      ((∀ el ∈ fromS.stack ++ fromS.altstack, el ≤ MAX_STACK_ELEMENT_VALUE) ∧
        (∀ el ∈ toS.stack ++ toS.altstack, el ≤ MAX_STACK_ELEMENT_VALUE))) := by
  constructor
  · rw [DisproveScript.newWithSeed, bind_map_isSome,
      SignedIntermediateState.signWithSeed, SignedIntermediateState.signWithSeed,
      signFn_isSome, signFn_isSome]
  · rw [DisproveScript.newEntropy, bind_map_isSome,
      SignedIntermediateState.signEntropy, SignedIntermediateState.signEntropy,
      signFn_isSome, signFn_isSome]

end Nero
